import Mathlib

/-!
Verification development for the partitioned storage engine of the gettu
repository.  The Lean definitions below are a shallow embedding of the
Python source: `etl_runtime.py` (field normalization and partition-key
derivation) and `storage.py` (atomic sinks, compaction, lifecycle and
performance monitoring).  Each definition mirrors one source function;
theorems at the end of the file settle the specification claims.
-/

namespace Gettu

/-! ### Partition key derivation (etl_runtime.EtlRuntime._normalize_fields)

The source derives the partition key column with the polars expression
`pl.col(pf).cast(pl.Utf8).str.replace('-', '').str.replace('/', '')
.cast(pl.UInt32, strict=False)` followed by an integer division.  Note that
polars `str.replace` replaces only the FIRST occurrence of the pattern, and
`strict=False` turns unparseable values into nulls instead of raising.
-/

/-- Remove the first occurrence of character c from a character list.
This is the embedding of polars Expr.str.replace(pattern, value) with a
single-character pattern and empty replacement: only the leftmost match is
replaced. -/
def removeFirstChar (c : Char) : List Char → List Char
  | [] => []
  | x :: xs => if x = c then xs else x :: removeFirstChar c xs

/-- Numeric value of a digit string. -/
def digitsToNat (ds : List Char) : Nat :=
  ds.foldl (fun a ch => 10 * a + (ch.toNat - 48)) 0

/-- Embedding of the polars cast of a Utf8 column to UInt32 with
strict=False: a non-empty all-digit string below 2^32 parses to its value,
anything else becomes null. -/
def castUInt32 (s : List Char) : Option Nat :=
  if s.isEmpty then none
  else if !(s.all Char.isDigit) then none
  else if digitsToNat s < 2 ^ 32 then some (digitsToNat s) else none

/-- The integer date value the source computes for a (nullable) date cell:
cast to string, drop the first '-' and the first '/', cast to UInt32 with
strict=False.  Null stays null. -/
def parseDateInt (v : Option String) : Option Nat :=
  match v with
  | none => none
  | some s => castUInt32 (removeFirstChar '/' (removeFirstChar '-' s.data))

/-- Modelled from the spec: the specification's `intValue` parses a date
string with ALL separators stripped ("2023-01-15" becomes 20230115).  This
definition follows the spec's words and is compared against the source's
`parseDateInt`, which strips only the first occurrence of each separator. -/
def specIntValue (s : String) : Option Nat :=
  castUInt32 (s.data.filter (fun ch => ch != '-' && ch != '/'))

/-- Partition granularity (config.PartitionGranularity): year, year_month
or none. -/
inductive Granularity
  | year
  | yearMonth
  | gnone
deriving DecidableEq, Repr

/-- The derived partition key of one date cell: floor division of the
parsed integer date by 10000 (year) or 100 (year_month).  No key is
derived for unpartitioned datasets. -/
def deriveKey (g : Granularity) (v : Option String) : Option Nat :=
  match g with
  | .year => (parseDateInt v).map (fun n => n / 10000)
  | .yearMonth => (parseDateInt v).map (fun n => n / 100)
  | .gnone => none

/-! ### Field name standardization (config.FIELD_MAPPING_CONFIG) -/

/-- config.FIELD_MAPPING_CONFIG: standardized name to accepted original
names. -/
def FIELD_MAPPING_CONFIG : List (String × List String) :=
  [("trade_date", ["trade_date", "date", "tradedate"]),
   ("ann_date", ["ann_date", "announcement_date", "date", "ann_dt"]),
   ("ts_code", ["ts_code", "stock_code", "code"])]

/-- The priority order in which _normalize_fields processes the mapping. -/
def fieldPriorityOrder : List String := ["trade_date", "ann_date", "ts_code"]

/-- polars DataFrame.rename on the column-name list: every occurrence of
the original name becomes the standardized name. -/
def renameCol (cols : List String) (orig std : String) : List String :=
  cols.map (fun c => if c = orig then std else c)

/-- One step of the renaming loop in _normalize_fields.  The membership
test is against the INITIAL column set (the source fixes current_columns
before the loop); the accumulator carries the evolving column list and the
processed original names; at most one original is renamed per standardized
name (the loop breaks after the first hit). -/
def fieldMappingStep (initCols : List String) (acc : List String × List String)
    (std : String) : List String × List String :=
  match FIELD_MAPPING_CONFIG.lookup std with
  | none => acc
  | some possibles =>
    match possibles.find? (fun o => initCols.contains o && o != std && !(acc.2.contains o)) with
    | none => acc
    | some o => (renameCol acc.1 o std, acc.2 ++ [o])

/-- The full renaming pass of _normalize_fields over the column names.
Every key of FIELD_MAPPING_CONFIG appears in fieldPriorityOrder, so the
second (non-priority) loop of the source is a no-op and is not modelled. -/
def applyFieldMapping (cols : List String) : List String :=
  (fieldPriorityOrder.foldl (fieldMappingStep cols) (cols, [])).1

/-- Result of field normalization: the column-name list of the frame and
the derived partition-key column (one nullable key per row of the
partition-field column). -/
structure NormResult where
  cols : List String
  keys : List (Option Nat)
  nrows : Nat
deriving DecidableEq, Repr

/-- EtlRuntime._normalize_fields, partition-key part: after the renaming
pass, if the configured partition field is present the int-date column and
the granularity key column are added (strict=False: unparseable values
become null keys, never an error); if it is absent and the granularity is
not none the whole batch is rejected.  pfVals are the values of the column
that carries the partition field's name after renaming. -/
def normalizeFields (g : Granularity) (pf : String) (cols : List String)
    (pfVals : List (Option String)) : Except String NormResult :=
  let mapped := applyFieldMapping cols
  if pf != "" && mapped.contains pf then
    match g with
    | .year =>
      .ok ⟨mapped ++ [pf ++ "_int", "year"], pfVals.map (deriveKey .year), pfVals.length⟩
    | .yearMonth =>
      .ok ⟨mapped ++ [pf ++ "_int", "year_month"], pfVals.map (deriveKey .yearMonth), pfVals.length⟩
    | .gnone =>
      .ok ⟨mapped ++ [pf ++ "_int"], [], pfVals.length⟩
  else
    if g != .gnone then
      .error ("cannot find required partition field: " ++ pf)
    else
      .ok ⟨mapped, [], pfVals.length⟩

/-! ### The atomic partitioned sink (storage.atomic_partitioned_sink)

The traditional (non-streaming) path: collect the frame, group by the
distinct values of the partition column, skip empty groups and write one
partition per group.  A polars equality filter against a null key value
yields a null mask, which drops every row, so the embedding's equality is
false whenever either side is null.
-/

/-- One row of a batch destined for a partitioned write: its (nullable)
partition key value and a payload identifier. -/
structure KRow (K : Type) where
  key : Option K
  payload : Nat
deriving DecidableEq, Repr

/-- polars equality of two nullable values as used by filter: comparisons
involving null produce null, which filter treats as false. -/
def polarsEq {K : Type} [DecidableEq K] : Option K → Option K → Bool
  | some a, some b => a == b
  | _, _ => false

/-- storage.atomic_partitioned_sink, grouping step: for every distinct
value of the key column (nulls included), filter the batch with a polars
equality and emit the group as one partition unless it is empty. -/
def atomicPartitionedSink {K : Type} [DecidableEq K] (rows : List (KRow K)) :
    List (Option K × List (KRow K)) :=
  ((rows.map KRow.key).dedup).filterMap (fun u =>
    let g := rows.filter (fun r => polarsEq r.key u)
    if g.isEmpty then none else some (u, g))

/-! ### The write pipeline (EtlRuntime.process_data steps 3 and 7) -/

/-- The partitioned part of the on-disk dataset: one entry per partition
key, plus the optional unpartitioned single file. -/
structure Fs where
  parts : List (Option Nat × List (KRow Nat))
  unpart : Option (List Nat)
deriving DecidableEq, Repr

/-- Committing the partitions produced by one sink run: each new partition
replaces the partition with the same key, other partitions are untouched. -/
def writePartitions (fs : List (Option Nat × List (KRow Nat)))
    (newParts : List (Option Nat × List (KRow Nat))) :
    List (Option Nat × List (KRow Nat)) :=
  fs.filter (fun e => !(newParts.any (fun n => n.1 == e.1))) ++ newParts

/-- EtlRuntime._write_data: year / year_month granularity checks that the
derived key column exists and runs the partitioned sink; granularity none
writes the single unpartitioned file. -/
def writeData (g : Granularity) (nr : NormResult) (fs : Fs) : Except String Fs :=
  match g with
  | .year =>
    if nr.cols.contains "year" then
      .ok ⟨writePartitions fs.parts
            (atomicPartitionedSink (nr.keys.enum.map (fun p => ⟨p.2, p.1⟩))), fs.unpart⟩
    else .error "partition field year does not exist"
  | .yearMonth =>
    if nr.cols.contains "year_month" then
      .ok ⟨writePartitions fs.parts
            (atomicPartitionedSink (nr.keys.enum.map (fun p => ⟨p.2, p.1⟩))), fs.unpart⟩
    else .error "partition field year_month does not exist"
  | .gnone => .ok ⟨fs.parts, some (List.range nr.nrows)⟩

/-- EtlRuntime.process_data, steps 3 (field normalization) and 7 (storage):
a raise in step 3 propagates before any write, leaving the filesystem
untouched.  The result pairs the outcome with the filesystem after the
call. -/
def processData (g : Granularity) (pf : String) (cols : List String)
    (pfVals : List (Option String)) (fs : Fs) : Except String Fs × Fs :=
  match normalizeFields g pf cols pfVals with
  | .error e => (.error e, fs)
  | .ok nr =>
    match writeData g nr fs with
    | .error e => (.error e, fs)
    | .ok fs2 => (.ok fs2, fs2)

/-! ### Compaction engine (storage.py)

A partition directory is modelled as a list of partitions; each partition
has a name, the rows its data file holds (none when reading the file
raises, e.g. a corrupt parquet file) and the byte size of the data file.
The byte size of a freshly written parquet file is abstract: a `Codec`
carries the size functions of the default codec and of zstd.
-/

/-- One partition directory with its data.parquet file.  `rows = none`
models a data file whose read raises (corrupt file). -/
structure Partition where
  name : String
  rows : Option (List Nat)
  size : Nat
deriving DecidableEq, Repr

/-- The partition directory tree under one base path. -/
abbrev DirState := List Partition

/-- Abstract parquet encoder: byte size of a file written with the default
codec (psize) and with zstd (zsize). -/
structure Codec where
  psize : List Nat → Nat
  zsize : List Nat → Nat

/-- Filesystem side effects performed by the storage layer. -/
inductive FsOp
  | mkdirOp (path : String)
  | writeOp (path : String)
  | writeTempOp (path : String)
  | renameOp (src dst : String)
  | deleteOp (path : String)
deriving DecidableEq, Repr

/-- Path of a partition's canonical data file. -/
def dataFilePath (p : Partition) : String := p.name ++ "/data.parquet"

/-- storage.check_partition_sizes: every partition directory paired with
the size of its data file. -/
def checkPartitionSizes (s : DirState) : List (Partition × Nat) :=
  s.map (fun p => (p, p.size))

/-- storage.merge_small_partitions: select the partitions below the size
threshold (bounded by max_partitions_to_merge), read them — a read failure
is logged and SKIPPED —, concatenate the successfully read frames, write
the union directly into a fresh merged timestamp-named partition, then delete
EVERY selected source partition, including those whose read failed.
Returns the new directory state and the trace of filesystem effects. -/
def mergeSmallPartitions (c : Codec) (thresholdBytes maxToMerge ts : Nat)
    (s : DirState) : DirState × List FsOp :=
  let partitionSizes := checkPartitionSizes s
  let smallPartitions := partitionSizes.filter (fun pr => pr.2 < thresholdBytes)
  if smallPartitions.length < 2 then (s, [])
  else
    let partitionsToMerge := smallPartitions.take maxToMerge
    let frames := partitionsToMerge.filterMap (fun pr => pr.1.rows)
    if frames.isEmpty then (s, [])
    else
      let mergedRows := frames.flatten
      let mergedName := "merged_" ++ toString ts
      let merged : Partition := ⟨mergedName, some mergedRows, c.psize mergedRows⟩
      let deleted := partitionsToMerge.map Prod.fst
      ((s.filter (fun p => !(deleted.contains p))) ++ [merged],
       [FsOp.mkdirOp mergedName, FsOp.writeOp (mergedName ++ "/data.parquet")]
         ++ deleted.map (fun p => FsOp.deleteOp p.name))

/-- One iteration of the recompression loop of
storage.optimize_partition_storage: read the partition's data file and
rewrite it IN PLACE with zstd; a read failure is logged and skipped. -/
def compressStep (c : Codec) (acc : DirState × List FsOp) (nm : String) :
    DirState × List FsOp :=
  match acc.1.find? (fun p => p.name == nm) with
  | none => acc
  | some p =>
    match p.rows with
    | none => acc
    | some rs =>
      (acc.1.map (fun q => if q.name == nm then ⟨q.name, q.rows, c.zsize rs⟩ else q),
       acc.2 ++ [FsOp.writeOp (nm ++ "/data.parquet")])

/-- The recompression pass of storage.optimize_partition_storage: the
partitions above 50 MB (at most 5 per run) are rewritten in place with
zstd. -/
def compressLargePartitions (c : Codec) (s : DirState) : DirState × List FsOp :=
  let larges := ((checkPartitionSizes s).filter (fun pr => 50 * 1024 * 1024 < pr.2)).take 5
  larges.foldl (fun acc pr => compressStep c acc pr.1.name) (s, [])

/-- The optimization strategies of storage.optimize_partition_storage that
the claims cite: the small-partition merge pass (size_threshold_mb=10,
default max_partitions_to_merge=10) and the recompression pass. -/
inductive Strategy
  | mergeStrat
  | compressStrat
deriving DecidableEq, Repr

/-- storage.optimize_partition_storage restricted to the merge and
compress branches. -/
def optimizePartitionStorage (c : Codec) (strat : Strategy) (ts : Nat)
    (s : DirState) : DirState × List FsOp :=
  match strat with
  | .mergeStrat => mergeSmallPartitions c (10 * 1024 * 1024) 10 ts s
  | .compressStrat => compressLargePartitions c s

/-! ### storage.merge_adjacent_partitions -/

/-- Boolean substring containment on character lists (the Python test
`pat in str(item)`). -/
def containsSub (pat : List Char) : List Char → Bool
  | [] => pat.isEmpty
  | x :: xs => ((x :: xs).take pat.length == pat) || containsSub pat xs

/-- Embedding of re.search(field=(\d+), name): the first occurrence of
`pat` followed by at least one digit yields the digit run's value;
otherwise the search continues; no match yields none. -/
def findValueAfter (pat : List Char) : List Char → Option Nat
  | [] => none
  | x :: xs =>
    if (x :: xs).take pat.length == pat then
      let ds := ((x :: xs).drop pat.length).takeWhile Char.isDigit
      if ds.isEmpty then findValueAfter pat xs else some (digitsToNat ds)
    else findValueAfter pat xs

/-- extract_partition_value of storage.merge_adjacent_partitions: the
integer after "field=" in the directory name, 0 when there is no match. -/
def extractPartitionValue (field : String) (nm : String) : Nat :=
  (findValueAfter (field.data ++ ['=']) nm.data).getD 0

/-- Stable insertion of `a` into an ascending list (after every element
with a key not above a's key), giving Python's stable ascending sort. -/
def insertAsc {α : Type} (val : α → Nat) (a : α) : List α → List α
  | [] => [a]
  | b :: bs => if val b ≤ val a then b :: insertAsc val a bs else a :: b :: bs

/-- Stable ascending sort by an integer key (Python list.sort(key=...)). -/
def sortByVal {α : Type} (val : α → Nat) (l : List α) : List α :=
  l.foldl (fun acc a => insertAsc val a acc) []

/-- storage.merge_adjacent_partitions: scan the partition directories whose
name contains "field=", sort them by partition value, and identify the
adjacent pairs (value distance exactly 1) whose data files are both below
5 MB.  The source only logs these candidates; it performs no filesystem
mutation, so the directory state passes through unchanged and the
candidate pairs are returned alongside it. -/
def mergeAdjacentPartitions (field : String) (s : DirState) :
    DirState × List (String × String) :=
  let dirs := s.filter (fun p => containsSub (field.data ++ ['=']) p.name.data)
  if dirs.length < 2 then (s, [])
  else
    let sorted := sortByVal (fun p => extractPartitionValue field p.name) dirs
    let pairs := (sorted.zip sorted.tail).filterMap (fun pr =>
      if extractPartitionValue field pr.2.name - extractPartitionValue field pr.1.name == 1 then
        if pr.1.size < 5 * 1024 * 1024 && pr.2.size < 5 * 1024 * 1024 then
          some (pr.1.name, pr.2.name)
        else none
      else none)
    (s, pairs)

/-! ### Performance monitoring (storage.analyze_partition_query_performance,
storage.check_performance_alerts)

Query times and timestamps are modelled as rationals.  A partition's
performance_history.json is an optional list of records; the alert
configuration file is optional.
-/

/-- One entry of performance_history.json. -/
structure PerfRecord where
  timestamp : ℚ
  queryTimeMs : ℚ
deriving DecidableEq, Repr

/-- A partition directory together with its optional performance history
sidecar. -/
structure PerfPartition where
  name : String
  history : Option (List PerfRecord)
deriving DecidableEq, Repr

/-- The persisted performance_alert_config.json. -/
structure AlertConfig where
  thresholdMs : ℚ
  enabled : Bool
deriving DecidableEq, Repr

/-- The monitoring-relevant state of one base directory: its partitions,
the optional alert configuration and the current time. -/
structure MonState where
  partitions : List PerfPartition
  alertConfig : Option AlertConfig
  now : ℚ
deriving DecidableEq, Repr

/-- The rolling average a partition contributes inside
storage.analyze_partition_query_performance: the mean query time of the
history records whose timestamp falls inside the analysis window.  none
when the history file is missing, empty, or has no record in the window. -/
def rollingAvg (now windowHours : ℚ) (p : PerfPartition) : Option ℚ :=
  match p.history with
  | none => none
  | some h =>
    if h.isEmpty then none
    else
      let recent := h.filter (fun r => now - windowHours * 3600 < r.timestamp)
      if recent.isEmpty then none
      else some ((recent.map PerfRecord.queryTimeMs).sum / (recent.length : ℚ))

/-- The performance_issues list of
storage.analyze_partition_query_performance (24 h window, called with its
default by check_performance_alerts): the partitions whose rolling average
exceeds the hard-coded 1000 ms cutoff, with their averages. -/
def performanceIssues (st : MonState) : List (String × ℚ) :=
  st.partitions.filterMap (fun p =>
    match rollingAvg st.now 24 p with
    | none => none
    | some a => if 1000 < a then some (p.name, a) else none)

/-- The alert entries the loop of storage.check_performance_alerts tries
to build: the performance issues whose average also exceeds the persisted
threshold. -/
def attemptedAlerts (st : MonState) (cfg : AlertConfig) : List (String × ℚ) :=
  (performanceIssues st).filter (fun i => cfg.thresholdMs < i.2)

/-- storage.check_performance_alerts: empty when the alert configuration
file is missing or disabled.  Otherwise the loop walks the performance
issues above the persisted threshold, but storage.py never imports `time`
at module level and this function imports only json, so constructing the
FIRST alert dict evaluates the undefined name `time` and raises
NameError, which the function's blanket exception handler catches,
returning the empty list.  Hence: empty when no issue exceeds the
threshold (the loop builds nothing), and empty again when one does (the
swallowed NameError). -/
def checkPerformanceAlerts (st : MonState) : List (String × ℚ) :=
  match st.alertConfig with
  | none => []
  | some cfg =>
    if !cfg.enabled then []
    else if (attemptedAlerts st cfg).isEmpty then []
    else []

/-- Modelled from the spec: the partitions whose rolling average query
time within the analysis window exceeds the given threshold — what the
spec says `alerts(dir)` returns for an enabled configuration with that
threshold. -/
def breachingPartitions (st : MonState) (threshold : ℚ) : List String :=
  st.partitions.filterMap (fun p =>
    match rollingAvg st.now 24 p with
    | none => none
    | some a => if threshold < a then some p.name else none)

/-! ### The single-file commit protocol (storage.atomic_partitioned_sink,
storage.atomic_unpartitioned_sink)

Both sinks write the new content into a temporary file obtained from
tempfile.NamedTemporaryFile(delete=False, suffix='.parquet') — with no dir
argument, so the temporary file lives in the system default temporary
directory — then back up the destination, rename the temporary file onto
it and drop the backup.
-/

/-- An absolute path: the containing directory's components and the file
name. -/
structure AbsPath where
  dir : List String
  file : String
deriving DecidableEq, Repr

/-- The process environment relevant to tempfile: the system default
temporary directory (tempfile.gettempdir()). -/
structure TmpEnv where
  sysTempDir : List String
deriving DecidableEq, Repr

/-- tempfile.NamedTemporaryFile(delete=False, suffix='.parquet') with NO
dir argument: the fresh file is created in the system default temporary
directory, regardless of the destination of the ongoing write. -/
def namedTemporaryFile (env : TmpEnv) (n : Nat) : AbsPath :=
  ⟨env.sysTempDir, "tmp" ++ toString n ++ ".parquet"⟩

/-- Path.with_suffix(suffix + '.backup') on the destination: same
directory, file name with ".backup" appended. -/
def backupPath (p : AbsPath) : AbsPath := ⟨p.dir, p.file ++ ".backup"⟩

/-- Contents of the flat file store: path to file content. -/
abbrev FileFs := List (AbsPath × List Nat)

/-- Content of a file, if it exists. -/
def fsGet (fs : FileFs) (p : AbsPath) : Option (List Nat) :=
  (fs.find? (fun e => e.1 == p)).map Prod.snd

/-- Path.unlink. -/
def fsDelete (fs : FileFs) (p : AbsPath) : FileFs :=
  fs.filter (fun e => !(e.1 == p))

/-- Create or overwrite a file. -/
def fsPut (fs : FileFs) (p : AbsPath) (content : List Nat) : FileFs :=
  fsDelete fs p ++ [(p, content)]

/-- Path.rename: move the source file onto the destination. -/
def fsRename (fs : FileFs) (src dst : AbsPath) : FileFs :=
  match fsGet fs src with
  | none => fs
  | some content => fsPut (fsDelete fs src) dst content

/-- Outcome of one single-file commit: the file store afterwards and the
temporary path the protocol used. -/
structure CommitResult where
  fs : FileFs
  tmpUsed : AbsPath
deriving Repr

/-- The success path of the per-file commit protocol shared by
atomic_partitioned_sink and atomic_unpartitioned_sink: write the new
content to a NamedTemporaryFile, back up an existing destination (dropping
a stale backup first), rename the temporary file onto the destination and
delete the backup. -/
def atomicReplace (env : TmpEnv) (n : Nat) (fs0 : FileFs) (outputPath : AbsPath)
    (content : List Nat) : CommitResult :=
  let tmp := namedTemporaryFile env n
  let fs1 := fsPut fs0 tmp content
  let backup := backupPath outputPath
  let fs2 :=
    if (fsGet fs1 outputPath).isSome then fsRename (fsDelete fs1 backup) outputPath backup
    else fs1
  let fs3 := fsRename fs2 tmp outputPath
  let fs4 := if (fsGet fs3 backup).isSome then fsDelete fs3 backup else fs3
  ⟨fs4, tmp⟩

/-- Is this filesystem effect a direct (in-place style) file write, i.e. a
plain write_parquet to the final path rather than a temp-file write? -/
def isDirectWrite : FsOp → Bool
  | .writeOp _ => true
  | _ => false

/-- Does this filesystem effect belong to the temp-file-then-rename commit
protocol of the atomic sinks? -/
def usesTempOrRename : FsOp → Bool
  | .writeTempOp _ => true
  | .renameOp _ _ => true
  | _ => false

/-- A concrete parquet encoder for evaluation: file size is the row
count. -/
def cTest : Codec := ⟨List.length, List.length⟩

/-- The partition a merge run creates from the successfully read frames. -/
def mergedPartition (c : Codec) (ts : Nat) (frames : List (List Nat)) : Partition :=
  ⟨"merged_" ++ toString ts, some frames.flatten, c.psize frames.flatten⟩

/-! ## Theorems -/

/-- C10: merge_adjacent_partitions performs no filesystem mutation: for
every directory state and partition field it returns the partition
directory tree byte-for-byte unchanged; it only identifies candidate
adjacent pairs. -/
theorem mergeAdjacentPartitions_no_mutation (field : String) (s : DirState) :
    (mergeAdjacentPartitions field s).1 = s := by
  unfold mergeAdjacentPartitions
  dsimp only
  split <;> rfl

/-- C1: the claim that a source partition that cannot be read aborts the
merge before any destructive delete is violated by the code: on a
directory with a readable small partition year=2001 (rows 10, 11) and a
corrupt small partition year=2002, merge_small_partitions skips the failed
read, merges only year=2001's rows, and still deletes year=2002 — its
rows are lost and the merged row count does not cover it. -/
theorem mergeSmallPartitions_deletes_unreadable_source :
    (mergeSmallPartitions cTest (10 * 1024 * 1024) 10 7
        [⟨"year=2001", some [10, 11], 100⟩, ⟨"year=2002", none, 50⟩]).1
      = [⟨"merged_7", some [10, 11], 2⟩]
    ∧ FsOp.deleteOp "year=2002" ∈
        (mergeSmallPartitions cTest (10 * 1024 * 1024) 10 7
          [⟨"year=2001", some [10, 11], 100⟩, ⟨"year=2002", none, 50⟩]).2 := by
  decide

/-- C7 counterexample: compaction twice in a row is not always a no-op on
the second run.  With three small partitions and max_partitions_to_merge
2, the first run merges only two of them; the second run again finds two
small partitions (the leftover and the merged one) and mutates the
directory. -/
theorem compaction_not_idempotent :
    (mergeSmallPartitions cTest 100 2 2
        (mergeSmallPartitions cTest 100 2 1
          [⟨"a", some [1], 1⟩, ⟨"b", some [2], 1⟩, ⟨"c", some [3], 1⟩]).1).1
      ≠ (mergeSmallPartitions cTest 100 2 1
          [⟨"a", some [1], 1⟩, ⟨"b", some [2], 1⟩, ⟨"c", some [3], 1⟩]).1 := by
  decide

/-- C6 counterexample: the recompression pass of
optimize_partition_storage rewrites an existing partition's data file IN
PLACE — its trace is a single direct write to the partition's pre-existing
data.parquet, with no temp-file and no rename anywhere. -/
theorem compression_writes_in_place :
    (optimizePartitionStorage cTest .compressStrat 0
        [⟨"year=2020", some [5], 60 * 1024 * 1024⟩]).2
      = [FsOp.writeOp "year=2020/data.parquet"]
    ∧ dataFilePath ⟨"year=2020", some [5], 60 * 1024 * 1024⟩ = "year=2020/data.parquet"
    ∧ (optimizePartitionStorage cTest .compressStrat 0
        [⟨"year=2020", some [5], 60 * 1024 * 1024⟩]).2.all
          (fun op => !(usesTempOrRename op)) = true
    ∧ (optimizePartitionStorage cTest .compressStrat 0
        [⟨"year=2020", some [5], 60 * 1024 * 1024⟩]).2.any isDirectWrite = true := by
  decide

/-- C2 counterexample: the temporary file of the commit protocol is
created by NamedTemporaryFile in the system default temporary directory,
not in the destination file's directory: for a destination under
base/year=2023 and a system temp dir tmp, the directories differ. -/
theorem tmpfile_not_in_destination_dir :
    (atomicReplace ⟨["tmp"]⟩ 0 [] ⟨["base", "year=2023"], "data.parquet"⟩ [1, 2]).tmpUsed.dir
      = ["tmp"]
    ∧ (atomicReplace ⟨["tmp"]⟩ 0 [] ⟨["base", "year=2023"], "data.parquet"⟩ [1, 2]).tmpUsed.dir
      ≠ ["base", "year=2023"] := by
  decide

/-- C4 counterexample: a non-null value of the partition field that fails
to parse as a date is NOT fatal for the batch: the cast is strict=False,
so normalization succeeds and the row simply receives a null partition
key. -/
theorem unparseable_value_not_fatal :
    normalizeFields .year "trade_date" ["trade_date"] [some "banana"]
      = .ok ⟨["trade_date", "trade_date_int", "year"], [none], 1⟩
    ∧ parseDateInt (some "banana") = none :=
  ⟨rfl, rfl⟩

/-- C8 counterexample: the code's intValue strips only the FIRST '-' and
the FIRST '/', so "2023-01-15" does not become 20230115: it fails the
UInt32 cast and the derived Year key is null, not
floor(20230115 / 10000) = 2023 as the spec's separator-stripped intValue
predicts. -/
theorem separated_date_key_not_spec_value :
    deriveKey .year (some "2023-01-15") = none
    ∧ specIntValue "2023-01-15" = some 20230115
    ∧ 20230115 / 10000 = 2023 := by
  decide

/-- C3: a batch whose configured date column is absent (it neither carries
the column nor acquires it through field-name standardization), written
against a Year-granularity configuration, is rejected by the pipeline with
a configuration error before the storage step, so the filesystem — the
partition tree as well as the unpartitioned file — is left unchanged and
no fallback to unpartitioned storage happens. -/
theorem missing_partition_field_rejected_fs_unchanged (pf : String)
    (cols : List String) (pfVals : List (Option String)) (fs : Fs)
    (_habsent : cols.contains pf = false)
    (hmapped : (applyFieldMapping cols).contains pf = false) :
    processData .year pf cols pfVals fs
      = (.error ("cannot find required partition field: " ++ pf), fs) := by
  unfold processData normalizeFields
  have hnm : pf ∉ applyFieldMapping cols := by simpa using hmapped
  simp [hnm]

/-- C3 witness: a batch with only an open column, a trade_date Year
partition configuration and an arbitrary non-empty filesystem is rejected
and the filesystem is untouched. -/
theorem missing_partition_field_rejected_witness :
    processData .year "trade_date" ["open"] [some "20230115"]
        ⟨[(some 2022, [⟨some 2022, 0⟩])], none⟩
      = (.error "cannot find required partition field: trade_date",
         ⟨[(some 2022, [⟨some 2022, 0⟩])], none⟩) := by
  have h := missing_partition_field_rejected_fs_unchanged "trade_date" ["open"]
    [some "20230115"] ⟨[(some 2022, [⟨some 2022, 0⟩])], none⟩ (by decide) (by decide)
  exact h

/-- C4 amended: partition-key derivation is fatal for the whole batch
exactly when the configured partition field is missing (after field-name
standardization); when the field is present the batch always normalizes
successfully — a non-null value that fails to parse is cast to a null key
under strict=False, no row is dropped and no per-row error is raised. -/
theorem partition_key_fatal_only_when_field_missing (g : Granularity)
    (pf : String) (cols : List String) (pfVals : List (Option String))
    (hg : g ≠ .gnone) :
    ((pf != "" && (applyFieldMapping cols).contains pf) = false →
       normalizeFields g pf cols pfVals
         = .error ("cannot find required partition field: " ++ pf))
    ∧ ((pf != "" && (applyFieldMapping cols).contains pf) = true →
       ∃ nr, normalizeFields g pf cols pfVals = .ok nr
         ∧ nr.keys = pfVals.map (deriveKey g)
         ∧ nr.keys.length = pfVals.length) := by
  constructor
  · intro hcond
    unfold normalizeFields
    simp only [hcond]
    cases g with
    | year => simp
    | yearMonth => simp
    | gnone => exact absurd rfl hg
  · intro hcond
    unfold normalizeFields
    simp only [hcond]
    cases g with
    | year => exact ⟨_, rfl, rfl, by simp⟩
    | yearMonth => exact ⟨_, rfl, rfl, by simp⟩
    | gnone => exact absurd rfl hg

/-- C4 witness: with the field present, a batch holding a null, a
well-formed date and an unparseable string normalizes without error into
the keys null, 2023, null. -/
theorem partition_key_fatal_witness :
    ∃ nr, normalizeFields .year "trade_date" ["trade_date"]
        [none, some "20230115", some "banana"] = .ok nr
      ∧ nr.keys = [none, some "20230115", some "banana"].map (deriveKey .year)
      ∧ nr.keys.length = 3 :=
  (partition_key_fatal_only_when_field_missing .year "trade_date" ["trade_date"]
    [none, some "20230115", some "banana"] (by decide)).2 (by decide)

/-- Removing the first occurrence of a character that does not occur is
the identity. -/
theorem removeFirstChar_of_not_mem (c : Char) (l : List Char) (h : c ∉ l) :
    removeFirstChar c l = l := by
  induction l with
  | nil => rfl
  | cons x xs ih =>
    have hx : ¬ x = c := by
      intro hx
      exact h (by simp [hx])
    rw [removeFirstChar, if_neg hx, ih (fun hm => h (List.mem_cons_of_mem _ hm))]

/-- A successful field normalization derives the key column pointwise from
the partition-field values. -/
theorem normalizeFields_ok_keys (g : Granularity) (pf : String)
    (cols : List String) (vals : List (Option String)) (nr : NormResult)
    (hg : g ≠ .gnone) (h : normalizeFields g pf cols vals = .ok nr) :
    nr.keys = vals.map (deriveKey g) := by
  cases g with
  | gnone => exact absurd rfl hg
  | year =>
    unfold normalizeFields at h
    dsimp only at h
    split at h
    · injection h with h2
      rw [← h2]
    · simp at h
  | yearMonth =>
    unfold normalizeFields at h
    dsimp only at h
    split at h
    · injection h with h2
      rw [← h2]
    · simp at h

/-- C8 amended: for a partitioned granularity the derived key column is
the pointwise image of the partition-field values under deriveKey — for
Year floor(intValue/10000) and for YearMonth floor(intValue/100), where
intValue strips only the FIRST '-' and the FIRST '/' before the
strict=False UInt32 cast; deriving twice from the same input column yields
identical values; and on values containing no separator at all the code's
intValue agrees with the spec's separator-stripped intValue. -/
theorem derived_key_pointwise_and_deterministic (g : Granularity) (pf : String)
    (cols cols2 : List String) (vals : List (Option String)) (nr nr2 : NormResult)
    (hg : g ≠ .gnone) (h1 : normalizeFields g pf cols vals = .ok nr) :
    nr.keys = vals.map (deriveKey g)
    ∧ (normalizeFields g pf cols2 vals = .ok nr2 → nr2.keys = nr.keys)
    ∧ (∀ s : String, (∀ c, c ∈ s.data → c ≠ '-' ∧ c ≠ '/') →
        parseDateInt (some s) = specIntValue s) := by
  refine ⟨normalizeFields_ok_keys g pf cols vals nr hg h1, ?_, ?_⟩
  · intro h2
    rw [normalizeFields_ok_keys g pf cols2 vals nr2 hg h2,
      normalizeFields_ok_keys g pf cols vals nr hg h1]
  · intro s hs
    have hdash : ('-' : Char) ∉ s.data := fun hm => (hs _ hm).1 rfl
    have hslash : ('/' : Char) ∉ s.data := fun hm => (hs _ hm).2 rfl
    simp only [parseDateInt, specIntValue]
    rw [removeFirstChar_of_not_mem _ _ hdash, removeFirstChar_of_not_mem _ _ hslash,
      List.filter_eq_self.mpr (fun c hc => by
        have := hs c hc
        simp [this.1, this.2])]

/-- C8 amended witness: for the purely numeric date 20230115 the Year key
is 2023, derivation is stable across a second run, and the code and spec
intValue agree on separator-free values. -/
theorem derived_key_pointwise_witness :
    (⟨["trade_date", "trade_date_int", "year"], [some 2023], 1⟩ : NormResult).keys
      = [some "20230115"].map (deriveKey .year)
    ∧ (normalizeFields .year "trade_date" ["trade_date"] [some "20230115"]
        = .ok ⟨["trade_date", "trade_date_int", "year"], [some 2023], 1⟩ →
       (⟨["trade_date", "trade_date_int", "year"], [some 2023], 1⟩ : NormResult).keys
         = (⟨["trade_date", "trade_date_int", "year"], [some 2023], 1⟩ : NormResult).keys)
    ∧ (∀ s : String, (∀ c, c ∈ s.data → c ≠ '-' ∧ c ≠ '/') →
        parseDateInt (some s) = specIntValue s) :=
  derived_key_pointwise_and_deterministic .year "trade_date" ["trade_date"]
    ["trade_date"] [some "20230115"]
    ⟨["trade_date", "trade_date_int", "year"], [some 2023], 1⟩
    ⟨["trade_date", "trade_date_int", "year"], [some 2023], 1⟩
    (by decide) rfl

/-- polars equality against a non-null value coincides with boolean
equality of the nullable values. -/
theorem polarsEq_some {K : Type} [DecidableEq K] (a : Option K) (k : K) :
    polarsEq a (some k) = (a == some k) := by
  cases a <;> rfl

/-- filterMap keeps the length when the function is some on every
element. -/
theorem length_filterMap_of_isSome {α β : Type} (f : α → Option β) (l : List α)
    (h : ∀ x ∈ l, (f x).isSome) : (l.filterMap f).length = l.length := by
  induction l with
  | nil => rfl
  | cons a l ih =>
    rcases Option.isSome_iff_exists.mp (h a (by simp)) with ⟨b, hb⟩
    rw [List.filterMap_cons, hb]
    simp [ih (fun x hx => h x (by simp [hx]))]

/-- Indicator sum over a list that does not contain the value. -/
theorem sum_indicator_zero {γ : Type} [BEq γ] [LawfulBEq γ] (a : γ) (us : List γ)
    (h : a ∉ us) : (us.map (fun u => if a == u then 1 else 0)).sum = 0 := by
  induction us with
  | nil => rfl
  | cons u us ih =>
    have h1 : ¬ a = u := fun he => h (by simp [he])
    simp only [List.map_cons, List.sum_cons]
    rw [if_neg (by simpa using h1), ih (fun hm => h (by simp [hm]))]

/-- Indicator sum over a duplicate-free list containing the value. -/
theorem sum_indicator_one {γ : Type} [BEq γ] [LawfulBEq γ] (a : γ) (us : List γ)
    (hn : us.Nodup) (hm : a ∈ us) :
    (us.map (fun u => if a == u then 1 else 0)).sum = 1 := by
  revert hn hm
  induction us with
  | nil => intro _ hm; cases hm
  | cons u us ih =>
    intro hn hm
    simp only [List.map_cons, List.sum_cons]
    by_cases he : a = u
    · subst he
      have hnot : a ∉ us := (List.nodup_cons.mp hn).1
      rw [if_pos (by simp), sum_indicator_zero a us hnot]
    · have hm2 : a ∈ us := by
        rcases List.mem_cons.mp hm with h | h
        · exact absurd h he
        · exact h
      rw [if_neg (by simpa using he), ih (List.nodup_cons.mp hn).2 hm2]

/-- Grouping a list by a key over a duplicate-free list of values covering
every element splits its length. -/
theorem sum_filter_key_lengths {α γ : Type} [BEq γ] [LawfulBEq γ] (f : α → γ)
    (l : List α) :
    ∀ us : List γ, us.Nodup → (∀ x ∈ l, f x ∈ us) →
      (us.map (fun u => (l.filter (fun x => f x == u)).length)).sum = l.length := by
  induction l with
  | nil => intro us _ _; simp
  | cons a l ih =>
    intro us hn hcov
    have hstep : us.map (fun u => ((a :: l).filter (fun x => f x == u)).length)
        = us.map (fun u =>
            (if f a == u then 1 else 0) + (l.filter (fun x => f x == u)).length) := by
      apply List.map_congr_left
      intro u _
      rw [List.filter_cons]
      by_cases hfa : (f a == u) = true
      · rw [if_pos hfa, if_pos hfa, List.length_cons]
        omega
      · rw [if_neg hfa, if_neg hfa]
        omega
    rw [hstep, List.sum_map_add,
      sum_indicator_one (f a) us hn (hcov a (by simp)),
      ih us hn (fun x hx => hcov x (by simp [hx]))]
    simp [Nat.add_comm]

/-- The per-partition lengths emitted by the sink, seen over the distinct
key values whose groups are non-empty. -/
theorem filterMap_group_lengths {K : Type} [DecidableEq K] (rows : List (KRow K)) :
    ∀ us : List (Option K),
      (∀ u ∈ us, (rows.filter (fun r => polarsEq r.key u)).isEmpty = false) →
      ((us.filterMap (fun u =>
          let g := rows.filter (fun r => polarsEq r.key u)
          if g.isEmpty then none else some (u, g))).map (fun pr => pr.2.length))
        = us.map (fun u => (rows.filter (fun r => polarsEq r.key u)).length) := by
  intro us
  induction us with
  | nil => intro _; rfl
  | cons u us ih =>
    intro hne
    have hfu : (let g := rows.filter (fun r => polarsEq r.key u)
        if g.isEmpty then none else some (u, g))
          = some (u, rows.filter (fun r => polarsEq r.key u)) := by
      simp [hne u (by simp)]
    rw [List.filterMap_cons, hfu, List.map_cons, List.map_cons,
      ih (fun x hx => hne x (by simp [hx]))]

/-- C5: for every batch in which each row carries a (non-null) partition
key value, the partitioned write produces exactly as many non-empty
partitions as there are distinct key values, every partition holds only
the rows carrying its key value, and the per-partition row counts sum to
the batch's total row count. -/
theorem partition_conservation {K : Type} [DecidableEq K] (rows : List (KRow K))
    (h : ∀ r ∈ rows, r.key ≠ none) :
    (atomicPartitionedSink rows).length = ((rows.map KRow.key).dedup).length
    ∧ (∀ pr ∈ atomicPartitionedSink rows, pr.2 ≠ [] ∧ ∀ r ∈ pr.2, r.key = pr.1)
    ∧ ((atomicPartitionedSink rows).map (fun pr => pr.2.length)).sum
        = rows.length := by
  have hkey : ∀ u ∈ (rows.map KRow.key).dedup, ∃ k, u = some k := by
    intro u hu
    rcases List.mem_map.mp (List.mem_dedup.mp hu) with ⟨r, hr, hru⟩
    rcases Option.ne_none_iff_exists.mp (h r hr) with ⟨k, hk⟩
    exact ⟨k, by rw [← hru, ← hk]⟩
  have hne : ∀ u ∈ (rows.map KRow.key).dedup,
      (rows.filter (fun r => polarsEq r.key u)).isEmpty = false := by
    intro u hu
    rcases List.mem_map.mp (List.mem_dedup.mp hu) with ⟨r, hr, hru⟩
    have hrmem : r ∈ rows.filter (fun r => polarsEq r.key u) := by
      rw [List.mem_filter]
      refine ⟨hr, ?_⟩
      rcases hkey u hu with ⟨k, rfl⟩
      rw [polarsEq_some, hru]
      simp
    cases hempty : (rows.filter (fun r => polarsEq r.key u)).isEmpty with
    | false => rfl
    | true =>
      rw [List.isEmpty_iff] at hempty
      rw [hempty] at hrmem
      cases hrmem
  refine ⟨?_, ?_, ?_⟩
  · apply length_filterMap_of_isSome
    intro u hu
    simp only [hne u hu]
    simp
  · intro pr hpr
    rcases List.mem_filterMap.mp hpr with ⟨u, hu, hf⟩
    simp only [hne u hu] at hf
    simp only [Bool.false_eq_true, if_false, Option.some.injEq] at hf
    subst hf
    dsimp only
    constructor
    · intro hnil
      have him := hne u hu
      rw [hnil] at him
      simp at him
    · intro r hrm
      have hfl := (List.mem_filter.mp hrm).2
      rcases hkey u hu with ⟨k, rfl⟩
      rw [polarsEq_some] at hfl
      exact eq_of_beq hfl
  · have hshape := filterMap_group_lengths rows (rows.map KRow.key).dedup hne
    have hfiltereq : ∀ u ∈ (rows.map KRow.key).dedup,
        (rows.filter (fun r => polarsEq r.key u)).length
          = (rows.filter (fun r => r.key == u)).length := by
      intro u hu
      rcases hkey u hu with ⟨k, rfl⟩
      congr 1
      apply List.filter_congr
      intro r _
      rw [polarsEq_some]
    rw [atomicPartitionedSink, hshape, List.map_congr_left hfiltereq]
    exact sum_filter_key_lengths KRow.key rows (rows.map KRow.key).dedup
      (List.nodup_dedup _) (fun r hr => List.mem_dedup.mpr (List.mem_map_of_mem _ hr))

/-- C5 witness: a three-row batch with years 2022, 2023, 2023 yields two
non-empty partitions whose row counts 1 and 2 sum to 3. -/
theorem partition_conservation_witness :
    (atomicPartitionedSink [⟨some 2022, 0⟩, ⟨some 2023, 1⟩, ⟨some 2023, 2⟩]).length
        = (([⟨some 2022, 0⟩, ⟨some 2023, 1⟩, ⟨some 2023, 2⟩] :
            List (KRow Nat)).map KRow.key).dedup.length
    ∧ (∀ pr ∈ atomicPartitionedSink
          ([⟨some 2022, 0⟩, ⟨some 2023, 1⟩, ⟨some 2023, 2⟩] : List (KRow Nat)),
        pr.2 ≠ [] ∧ ∀ r ∈ pr.2, r.key = pr.1)
    ∧ ((atomicPartitionedSink
          ([⟨some 2022, 0⟩, ⟨some 2023, 1⟩, ⟨some 2023, 2⟩] :
            List (KRow Nat))).map (fun pr => pr.2.length)).sum = 3 :=
  partition_conservation
    ([⟨some 2022, 0⟩, ⟨some 2023, 1⟩, ⟨some 2023, 2⟩] : List (KRow Nat))
    (by decide)

/-- The small-partition selection of merge_small_partitions, expressed on
the partition list itself. -/
theorem checkPartitionSizes_filter (s : DirState) (thr : Nat) :
    (checkPartitionSizes s).filter (fun pr => pr.2 < thr)
      = (s.filter (fun p => p.size < thr)).map (fun p => (p, p.size)) := by
  unfold checkPartitionSizes
  rw [List.filter_map]
  rfl

/-- merge_small_partitions is a no-op when fewer than two partitions are
below the threshold. -/
theorem mergeSmall_noop_small (c : Codec) (thr maxN ts : Nat) (s : DirState)
    (h : (s.filter (fun p => p.size < thr)).length < 2) :
    mergeSmallPartitions c thr maxN ts s = (s, []) := by
  unfold mergeSmallPartitions
  dsimp only
  rw [checkPartitionSizes_filter]
  have hh : ((s.filter (fun p => p.size < thr)).map (fun p => (p, p.size))).length < 2 := by
    rw [List.length_map]
    exact h
  rw [if_pos hh]

/-- merge_small_partitions is a no-op when no selected partition can be
read. -/
theorem mergeSmall_noop_noframes (c : Codec) (thr maxN ts : Nat) (s : DirState)
    (hfr : (((s.filter (fun p => p.size < thr)).take maxN).filterMap Partition.rows).isEmpty
      = true) :
    mergeSmallPartitions c thr maxN ts s = (s, []) := by
  unfold mergeSmallPartitions
  dsimp only
  rw [checkPartitionSizes_filter]
  by_cases h2 : ((s.filter (fun p => p.size < thr)).map (fun p => (p, p.size))).length < 2
  · rw [if_pos h2]
  · rw [if_neg h2]
    have hsh : (((s.filter (fun p => p.size < thr)).map (fun p => (p, p.size))).take maxN).filterMap
          (fun pr => pr.1.rows)
        = ((s.filter (fun p => p.size < thr)).take maxN).filterMap Partition.rows := by
      rw [← List.map_take, List.filterMap_map]
      rfl
    rw [hsh, if_pos hfr]

/-- merge_small_partitions when the run goes through: at least two small
partitions, all of them selected (their number is at most
max_partitions_to_merge) and at least one of them readable.  All small
partitions are removed and the merged partition is appended. -/
theorem mergeSmall_run (c : Codec) (thr maxN ts : Nat) (s : DirState)
    (h2 : 2 ≤ (s.filter (fun p => p.size < thr)).length)
    (hle : (s.filter (fun p => p.size < thr)).length ≤ maxN)
    (hfr : (s.filter (fun p => p.size < thr)).filterMap Partition.rows ≠ []) :
    mergeSmallPartitions c thr maxN ts s
      = ((s.filter (fun p => !((s.filter (fun p => p.size < thr)).contains p)))
          ++ [mergedPartition c ts ((s.filter (fun p => p.size < thr)).filterMap Partition.rows)],
         [FsOp.mkdirOp ("merged_" ++ toString ts),
          FsOp.writeOp ("merged_" ++ toString ts ++ "/data.parquet")]
           ++ (s.filter (fun p => p.size < thr)).map (fun p => FsOp.deleteOp p.name)) := by
  unfold mergeSmallPartitions
  dsimp only
  rw [checkPartitionSizes_filter]
  have hh2 : ¬ ((s.filter (fun p => p.size < thr)).map (fun p => (p, p.size))).length < 2 := by
    rw [List.length_map]
    omega
  rw [if_neg hh2]
  have htake : ((s.filter (fun p => p.size < thr)).map (fun p => (p, p.size))).take maxN
      = (s.filter (fun p => p.size < thr)).map (fun p => (p, p.size)) := by
    apply List.take_of_length_le
    rw [List.length_map]
    exact hle
  rw [htake]
  have hframes : ((s.filter (fun p => p.size < thr)).map (fun p => (p, p.size))).filterMap
        (fun pr => pr.1.rows)
      = (s.filter (fun p => p.size < thr)).filterMap Partition.rows := by
    rw [List.filterMap_map]
    rfl
  rw [hframes]
  have hemp : ((s.filter (fun p => p.size < thr)).filterMap Partition.rows).isEmpty = false := by
    have hne : ¬ ((s.filter (fun p => p.size < thr)).filterMap Partition.rows).isEmpty = true := by
      rw [List.isEmpty_iff]
      exact hfr
    exact Bool.eq_false_iff.mpr hne
  simp only [hemp, Bool.false_eq_true, if_false]
  have hdel : ((s.filter (fun p => p.size < thr)).map (fun p => (p, p.size))).map Prod.fst
      = s.filter (fun p => p.size < thr) := by
    rw [List.map_map]
    have hid : Prod.fst ∘ (fun p : Partition => (p, p.size)) = id := rfl
    rw [hid, List.map_id]
  rw [hdel]
  rfl

/-- C7 amended: running merge_small_partitions twice with no intervening
writes leaves the directory unchanged on the second run PROVIDED the
first run can select every small partition, i.e. the number of partitions
below the threshold does not exceed max_partitions_to_merge; after such a
first pass at most the merged partition itself is small, so no qualifying
pair remains. -/
theorem compaction_idempotent_when_merge_complete (c : Codec)
    (thr maxN ts1 ts2 : Nat) (s : DirState)
    (h : (s.filter (fun p => p.size < thr)).length ≤ maxN) :
    (mergeSmallPartitions c thr maxN ts2 (mergeSmallPartitions c thr maxN ts1 s).1).1
      = (mergeSmallPartitions c thr maxN ts1 s).1 := by
  by_cases h2 : (s.filter (fun p => p.size < thr)).length < 2
  · rw [mergeSmall_noop_small c thr maxN ts1 s h2]
    dsimp only
    rw [mergeSmall_noop_small c thr maxN ts2 s h2]
  · push_neg at h2
    by_cases hfr : (s.filter (fun p => p.size < thr)).filterMap Partition.rows = []
    · have htake : (s.filter (fun p => p.size < thr)).take maxN
          = s.filter (fun p => p.size < thr) := List.take_of_length_le h
      have hempty : (((s.filter (fun p => p.size < thr)).take maxN).filterMap
          Partition.rows).isEmpty = true := by
        rw [htake, hfr]
        rfl
      rw [mergeSmall_noop_noframes c thr maxN ts1 s hempty]
      dsimp only
      rw [mergeSmall_noop_noframes c thr maxN ts2 s hempty]
    · rw [mergeSmall_run c thr maxN ts1 s h2 h hfr]
      dsimp only
      have hsmall : (((s.filter (fun p => !((s.filter (fun p => p.size < thr)).contains p)))
          ++ [mergedPartition c ts1
               ((s.filter (fun p => p.size < thr)).filterMap Partition.rows)]).filter
            (fun p => p.size < thr)).length < 2 := by
        rw [List.filter_append]
        have hA : (s.filter (fun p => !((s.filter (fun p => p.size < thr)).contains p))).filter
            (fun p => p.size < thr) = [] := by
          rw [List.filter_eq_nil_iff]
          intro p hp hsz
          have hmem := List.mem_filter.mp hp
          have hpin : p ∈ s.filter (fun p => p.size < thr) :=
            List.mem_filter.mpr ⟨hmem.1, hsz⟩
          have hcon := hmem.2
          simp [hpin] at hcon
        rw [hA, List.nil_append]
        have hlen := List.length_filter_le (fun p => p.size < thr)
          [mergedPartition c ts1 ((s.filter (fun p => p.size < thr)).filterMap Partition.rows)]
        simp only [List.length_cons, List.length_nil] at hlen
        omega
      rw [mergeSmall_noop_small c thr maxN ts2 _ hsmall]

/-- C7 amended witness: five small two-row partitions below the threshold
with max_partitions_to_merge 10 are merged in one pass and the second run
changes nothing. -/
theorem compaction_idempotent_witness :
    (mergeSmallPartitions cTest 1024 10 2
        (mergeSmallPartitions cTest 1024 10 1
          [⟨"p0", some [0, 1], 64⟩, ⟨"p1", some [2, 3], 64⟩, ⟨"p2", some [4, 5], 64⟩,
           ⟨"p3", some [6, 7], 64⟩, ⟨"p4", some [8, 9], 64⟩]).1).1
      = (mergeSmallPartitions cTest 1024 10 1
          [⟨"p0", some [0, 1], 64⟩, ⟨"p1", some [2, 3], 64⟩, ⟨"p2", some [4, 5], 64⟩,
           ⟨"p3", some [6, 7], 64⟩, ⟨"p4", some [8, 9], 64⟩]).1 :=
  compaction_idempotent_when_merge_complete cTest 1024 10 1 2
    [⟨"p0", some [0, 1], 64⟩, ⟨"p1", some [2, 3], 64⟩, ⟨"p2", some [4, 5], 64⟩,
     ⟨"p3", some [6, 7], 64⟩, ⟨"p4", some [8, 9], 64⟩]
    (by decide)

/-- Every effect emitted by one recompression step is either inherited or
the in-place write of the named partition's data file. -/
theorem compressStep_ops (c : Codec) (acc : DirState × List FsOp) (nm : String) :
    ∀ op ∈ (compressStep c acc nm).2,
      op ∈ acc.2 ∨ op = FsOp.writeOp (nm ++ "/data.parquet") := by
  intro op hop
  unfold compressStep at hop
  split at hop
  · exact Or.inl hop
  · split at hop
    · exact Or.inl hop
    · rcases List.mem_append.mp hop with h | h
      · exact Or.inl h
      · simp at h
        exact Or.inr h

/-- Every effect emitted by the recompression fold is either inherited or
an in-place write of one of the listed partitions' data files. -/
theorem compressFold_ops (c : Codec) :
    ∀ (l : List (Partition × Nat)) (acc : DirState × List FsOp),
      ∀ op ∈ (l.foldl (fun a pr => compressStep c a pr.1.name) acc).2,
        op ∈ acc.2 ∨ ∃ pr ∈ l, op = FsOp.writeOp (pr.1.name ++ "/data.parquet") := by
  intro l
  induction l with
  | nil => intro acc op hop; exact Or.inl hop
  | cons pr l ih =>
    intro acc op hop
    rw [List.foldl_cons] at hop
    rcases ih (compressStep c acc pr.1.name) op hop with h | ⟨pr2, hpr2, heq⟩
    · rcases compressStep_ops c acc pr.1.name op h with h2 | h2
      · exact Or.inl h2
      · exact Or.inr ⟨pr, by simp, h2⟩
    · exact Or.inr ⟨pr2, by simp [hpr2], heq⟩

/-- Every effect of the recompression pass is the in-place rewrite of the
data file of a partition that was above 50 MB in the initial listing. -/
theorem compressLarge_ops (c : Codec) (s : DirState) :
    ∀ op ∈ (compressLargePartitions c s).2,
      ∃ pr ∈ checkPartitionSizes s, 50 * 1024 * 1024 < pr.2
        ∧ op = FsOp.writeOp (dataFilePath pr.1) := by
  intro op hop
  unfold compressLargePartitions at hop
  rcases compressFold_ops c _ _ op hop with h | ⟨pr, hpr, heq⟩
  · cases h
  · have hpr2 := List.take_subset _ _ hpr
    have hpr3 := List.mem_filter.mp hpr2
    exact ⟨pr, hpr3.1, by simpa using hpr3.2, heq⟩

/-- The effects of one merge run: create the merged directory, write its
data file directly, delete the sources. -/
theorem mergeSmall_ops (c : Codec) (thr maxN ts : Nat) (s : DirState) :
    ∀ op ∈ (mergeSmallPartitions c thr maxN ts s).2,
      op = FsOp.mkdirOp ("merged_" ++ toString ts)
      ∨ op = FsOp.writeOp ("merged_" ++ toString ts ++ "/data.parquet")
      ∨ ∃ nm, op = FsOp.deleteOp nm := by
  intro op hop
  unfold mergeSmallPartitions at hop
  dsimp only at hop
  split at hop
  · simp at hop
  · split at hop
    · simp at hop
    · rcases List.mem_append.mp hop with h | h
      · simp only [List.mem_cons, List.mem_singleton] at h
        rcases h with h | h | h
        · exact Or.inl h
        · exact Or.inr (Or.inl h)
        · cases h
      · rcases List.mem_map.mp h with ⟨p, _, heq⟩
        exact Or.inr (Or.inr ⟨p.name, heq.symm⟩)

/-- C6 amended: no compaction operation uses the temp-file-then-rename
AtomicSink protocol.  The merge passes write the merged data file
DIRECTLY (their only file write targets the fresh merged partition's
data.parquet), and the recompression pass rewrites the data file of an
existing above-threshold partition IN PLACE. -/
theorem compaction_writes_direct :
    (∀ (c : Codec) (strat : Strategy) (ts : Nat) (s : DirState),
      ∀ op ∈ (optimizePartitionStorage c strat ts s).2, usesTempOrRename op = false)
    ∧ (∀ (c : Codec) (thr maxN ts : Nat) (s : DirState),
        ∀ op ∈ (mergeSmallPartitions c thr maxN ts s).2,
          isDirectWrite op = true →
            op = FsOp.writeOp ("merged_" ++ toString ts ++ "/data.parquet"))
    ∧ (∀ (c : Codec) (s : DirState), ∀ op ∈ (compressLargePartitions c s).2,
        ∃ pr ∈ checkPartitionSizes s, 50 * 1024 * 1024 < pr.2
          ∧ op = FsOp.writeOp (dataFilePath pr.1)) := by
  refine ⟨?_, ?_, ?_⟩
  · intro c strat ts s op hop
    cases strat with
    | mergeStrat =>
      rcases mergeSmall_ops c (10 * 1024 * 1024) 10 ts s op hop with h | h | ⟨nm, h⟩ <;>
        subst h <;> rfl
    | compressStrat =>
      rcases compressLarge_ops c s op hop with ⟨pr, _, _, heq⟩
      subst heq
      rfl
  · intro c thr maxN ts s op hop hdw
    rcases mergeSmall_ops c thr maxN ts s op hop with h | h | ⟨nm, h⟩
    · subst h
      simp [isDirectWrite] at hdw
    · exact h
    · subst h
      simp [isDirectWrite] at hdw
  · intro c s op hop
    exact compressLarge_ops c s op hop

/-- C6 amended witness: on a directory with two small partitions the merge
pass's only direct write is the merged partition's data file. -/
theorem compaction_writes_direct_witness :
    FsOp.writeOp "merged_7/data.parquet"
      = FsOp.writeOp ("merged_" ++ toString 7 ++ "/data.parquet") :=
  compaction_writes_direct.2.1 cTest (10 * 1024 * 1024) 10 7
    [⟨"a", some [1], 1⟩, ⟨"b", some [2], 1⟩]
    (FsOp.writeOp "merged_7/data.parquet") (by decide) (by decide)

/-- Removing one path from the store does not disturb the lookup of a
different path. -/
theorem find?_filter_not (l : FileFs) (p q : AbsPath) (h : q ≠ p) :
    (l.filter (fun e => !(e.1 == p))).find? (fun e => e.1 == q)
      = l.find? (fun e => e.1 == q) := by
  induction l with
  | nil => rfl
  | cons e l ih =>
    by_cases heq : (e.1 == q) = true
    · have hep : (e.1 == p) = false := by
        have h1 : e.1 = q := eq_of_beq heq
        rw [h1]
        exact beq_eq_false_iff_ne.mpr h
      simp [List.filter_cons, hep, List.find?_cons, heq]
    · by_cases hep : (e.1 == p) = true
      · simp [List.filter_cons, hep, List.find?_cons, heq, ih]
      · simp [List.filter_cons, hep, List.find?_cons, heq, ih]

/-- Deleting a path empties its lookup. -/
theorem fsGet_fsDelete_self (fs : FileFs) (p : AbsPath) :
    fsGet (fsDelete fs p) p = none := by
  unfold fsGet fsDelete
  have h : (fs.filter (fun e => !(e.1 == p))).find? (fun e => e.1 == p) = none := by
    rw [List.find?_eq_none]
    intro e he
    have h2 := (List.mem_filter.mp he).2
    simp at h2
    simp [h2]
  rw [h]
  rfl

/-- Deleting a path leaves other lookups alone. -/
theorem fsGet_fsDelete_ne (fs : FileFs) (p q : AbsPath) (h : q ≠ p) :
    fsGet (fsDelete fs p) q = fsGet fs q := by
  unfold fsGet fsDelete
  rw [find?_filter_not fs p q h]

/-- Writing a file makes its content readable. -/
theorem fsGet_fsPut_self (fs : FileFs) (p : AbsPath) (c : List Nat) :
    fsGet (fsPut fs p c) p = some c := by
  unfold fsGet fsPut fsDelete
  rw [List.find?_append]
  have h : (fs.filter (fun e => !(e.1 == p))).find? (fun e => e.1 == p) = none := by
    rw [List.find?_eq_none]
    intro e he
    have h2 := (List.mem_filter.mp he).2
    simp at h2
    simp [h2]
  rw [h]
  simp

/-- Writing a file leaves other lookups alone. -/
theorem fsGet_fsPut_ne (fs : FileFs) (p : AbsPath) (c : List Nat) (q : AbsPath)
    (h : q ≠ p) : fsGet (fsPut fs p c) q = fsGet fs q := by
  unfold fsGet fsPut fsDelete
  rw [List.find?_append, find?_filter_not fs p q h]
  have hpq : ((p, c).1 == q) = false := beq_eq_false_iff_ne.mpr (Ne.symm h)
  cases hf : fs.find? (fun e => e.1 == q) with
  | none => simp [List.find?_cons, hpq]
  | some e => simp

/-- A destination file differs from its own backup path. -/
theorem ne_backupPath (p : AbsPath) : p ≠ backupPath p := by
  intro he
  have hf := congrArg AbsPath.file he
  simp only [backupPath] at hf
  have hlen := congrArg String.length hf
  rw [String.length_append] at hlen
  have hseven : (".backup" : String).length = 7 := rfl
  rw [hseven] at hlen
  omega

/-- C2 amended: the commit protocol's temporary file T is created in the
SYSTEM default temporary directory (NamedTemporaryFile is called without
a dir argument), not in the destination's directory; the rename still
moves the new content onto the destination and removes T, but the
same-filesystem guarantee the spec derives from same-directory placement
does not hold. -/
theorem atomic_commit_tmp_in_system_tempdir (env : TmpEnv) (n : Nat)
    (fs0 : FileFs) (outputPath : AbsPath) (content : List Nat)
    (h : outputPath.dir ≠ env.sysTempDir) :
    (atomicReplace env n fs0 outputPath content).tmpUsed.dir = env.sysTempDir
    ∧ fsGet (atomicReplace env n fs0 outputPath content).fs outputPath = some content
    ∧ fsGet (atomicReplace env n fs0 outputPath content).fs
        (atomicReplace env n fs0 outputPath content).tmpUsed = none := by
  have htmpout : outputPath ≠ namedTemporaryFile env n :=
    fun he => h (congrArg AbsPath.dir he)
  have htmpback : backupPath outputPath ≠ namedTemporaryFile env n :=
    fun he => h (congrArg AbsPath.dir he)
  have houtback : outputPath ≠ backupPath outputPath := ne_backupPath outputPath
  have hget1 : fsGet (fsPut fs0 (namedTemporaryFile env n) content)
      (namedTemporaryFile env n) = some content := fsGet_fsPut_self _ _ _
  unfold atomicReplace
  dsimp only
  set tmp := namedTemporaryFile env n with htmp
  set fs1 := fsPut fs0 tmp content with hfs1
  set backup := backupPath outputPath with hbackup
  set fs2 := if (fsGet fs1 outputPath).isSome
      then fsRename (fsDelete fs1 backup) outputPath backup else fs1 with hfs2
  have hget2 : fsGet fs2 tmp = some content := by
    rw [hfs2]
    by_cases hex : (fsGet fs1 outputPath).isSome
    · rw [if_pos hex]
      unfold fsRename
      have hd : fsGet (fsDelete fs1 backup) tmp = some content := by
        rw [fsGet_fsDelete_ne fs1 backup tmp (Ne.symm htmpback)]
        exact hget1
      cases hro : fsGet (fsDelete fs1 backup) outputPath with
      | none => exact hd
      | some c0 =>
        rw [fsGet_fsPut_ne _ _ _ _ (Ne.symm htmpback),
          fsGet_fsDelete_ne _ _ _ (Ne.symm htmpout)]
        exact hd
    · rw [if_neg hex]
      exact hget1
  have hfs3 : fsRename fs2 tmp outputPath = fsPut (fsDelete fs2 tmp) outputPath content := by
    unfold fsRename
    rw [hget2]
  rw [hfs3]
  have hout3 : fsGet (fsPut (fsDelete fs2 tmp) outputPath content) outputPath
      = some content := fsGet_fsPut_self _ _ _
  have htmp3 : fsGet (fsPut (fsDelete fs2 tmp) outputPath content) tmp = none := by
    rw [fsGet_fsPut_ne _ _ _ _ (Ne.symm htmpout), fsGet_fsDelete_self]
  refine ⟨rfl, ?_, ?_⟩
  · by_cases hb : (fsGet (fsPut (fsDelete fs2 tmp) outputPath content) backup).isSome
    · rw [if_pos hb, fsGet_fsDelete_ne _ _ _ houtback]
      exact hout3
    · rw [if_neg hb]
      exact hout3
  · by_cases hb : (fsGet (fsPut (fsDelete fs2 tmp) outputPath content) backup).isSome
    · rw [if_pos hb, fsGet_fsDelete_ne _ _ _ (Ne.symm htmpback)]
      exact htmp3
    · rw [if_neg hb]
      exact htmp3

/-- C2 amended witness: committing to base/year=2023/data.parquet with
system temp dir tmp places T under tmp, lands the content at the
destination and leaves no temporary file behind. -/
theorem atomic_commit_tmp_witness :
    (atomicReplace ⟨["tmp"]⟩ 0 [] ⟨["base", "year=2023"], "data.parquet"⟩
        [1, 2]).tmpUsed.dir = ["tmp"]
    ∧ fsGet (atomicReplace ⟨["tmp"]⟩ 0 [] ⟨["base", "year=2023"], "data.parquet"⟩
        [1, 2]).fs ⟨["base", "year=2023"], "data.parquet"⟩ = some [1, 2]
    ∧ fsGet (atomicReplace ⟨["tmp"]⟩ 0 [] ⟨["base", "year=2023"], "data.parquet"⟩
        [1, 2]).fs
        (atomicReplace ⟨["tmp"]⟩ 0 [] ⟨["base", "year=2023"], "data.parquet"⟩
          [1, 2]).tmpUsed = none :=
  atomic_commit_tmp_in_system_tempdir ⟨["tmp"]⟩ 0 []
    ⟨["base", "year=2023"], "data.parquet"⟩ [1, 2] (by decide)

/-- Filtering the 1000 ms performance issues by a second threshold is the
same as selecting above the maximum of both thresholds. -/
theorem alerts_filter_map_eq (now T : ℚ) (ps : List PerfPartition) :
    ((ps.filterMap (fun p =>
        match rollingAvg now 24 p with
        | none => none
        | some a => if 1000 < a then some (p.name, a) else none)).filter
      (fun i => T < i.2)).map Prod.fst
      = ps.filterMap (fun p =>
          match rollingAvg now 24 p with
          | none => none
          | some a => if max T 1000 < a then some p.name else none) := by
  induction ps with
  | nil => rfl
  | cons p ps ih =>
    rw [List.filterMap_cons, List.filterMap_cons]
    cases hra : rollingAvg now 24 p with
    | none => exact ih
    | some a =>
      by_cases h1 : (1000 : ℚ) < a
      · by_cases h2 : T < a
        · have hm : max T 1000 < a := max_lt_iff.mpr ⟨h2, h1⟩
          simp [h1, h2, hm, ih]
        · have hm : ¬ (max T 1000 < a) := fun hc => h2 (max_lt_iff.mp hc).1
          simp [h1, h2, hm, ih]
      · have hm : ¬ (max T 1000 < a) := fun hc => h1 (max_lt_iff.mp hc).2
        simp [h1, hm, ih]

/-- C9 amended: check_performance_alerts ALWAYS returns the empty list:
by design when the alert configuration file is missing or its enabled
flag is false, and for an enabled configuration because either no
partition exceeds the thresholds (the loop builds nothing) or the
construction of the first alert evaluates the unimported name time,
raising a NameError that the function's blanket exception handler
swallows into an empty list.  The alert set the loop attempts to build —
what the function would return with the import repaired — is exactly the
partitions whose rolling average query time within the 24 h analysis
window exceeds BOTH the persisted threshold T and the analyzer's
hard-coded 1000 ms cutoff, i.e. max(T, 1000), not T alone. -/
theorem alerts_always_empty_swallowed_breaches :
    (∀ st : MonState, checkPerformanceAlerts st = [])
    ∧ (∀ (st : MonState) (cfg : AlertConfig), st.alertConfig = some cfg →
        cfg.enabled = true →
        (attemptedAlerts st cfg).map Prod.fst
          = breachingPartitions st (max cfg.thresholdMs 1000)) := by
  refine ⟨?_, ?_⟩
  · intro st
    unfold checkPerformanceAlerts
    split
    · rfl
    · split
      · rfl
      · split <;> rfl
  · intro st cfg _hcfg _hen
    unfold attemptedAlerts performanceIssues breachingPartitions
    exact alerts_filter_map_eq st.now cfg.thresholdMs st.partitions

/-- C9 amended witness: with an enabled 500 ms configuration and a
partition averaging 1500 ms, the attempted (swallowed) alert set equals
the partitions breaching max(500, 1000) = 1000 ms. -/
theorem alerts_always_empty_witness :
    (attemptedAlerts ⟨[⟨"p0", some [⟨10, 1500⟩]⟩], some ⟨500, true⟩, 10⟩
        ⟨500, true⟩).map Prod.fst
      = breachingPartitions ⟨[⟨"p0", some [⟨10, 1500⟩]⟩], some ⟨500, true⟩, 10⟩
          (max 500 1000) :=
  alerts_always_empty_swallowed_breaches.2
    ⟨[⟨"p0", some [⟨10, 1500⟩]⟩], some ⟨500, true⟩, 10⟩ ⟨500, true⟩ rfl rfl

/-- C9 counterexample: with an enabled configuration whose threshold is
500 ms and a partition whose 24 h rolling average is 1500 ms, the claim
says the partition is returned (1500 exceeds 500), but
check_performance_alerts returns the empty list: building the alert dict
raises NameError on the unimported name time and the blanket exception
handler returns []. -/
theorem alerts_breach_never_returned :
    checkPerformanceAlerts ⟨[⟨"p0", some [⟨10, 1500⟩]⟩], some ⟨500, true⟩, 10⟩ = []
    ∧ breachingPartitions ⟨[⟨"p0", some [⟨10, 1500⟩]⟩], some ⟨500, true⟩, 10⟩ 500
        = ["p0"]
    ∧ (checkPerformanceAlerts
          ⟨[⟨"p0", some [⟨10, 1500⟩]⟩], some ⟨500, true⟩, 10⟩).map Prod.fst
        ≠ breachingPartitions ⟨[⟨"p0", some [⟨10, 1500⟩]⟩], some ⟨500, true⟩, 10⟩ 500 := by
  have hempty : checkPerformanceAlerts
      ⟨[⟨"p0", some [⟨10, 1500⟩]⟩], some ⟨500, true⟩, 10⟩ = [] := by
    unfold checkPerformanceAlerts
    dsimp only
    split
    · rfl
    · split <;> rfl
  have hra : rollingAvg 10 24 ⟨"p0", some [⟨10, 1500⟩]⟩ = some 1500 := by
    unfold rollingAvg
    norm_num
  have hbr : breachingPartitions
      ⟨[⟨"p0", some [⟨10, 1500⟩]⟩], some ⟨500, true⟩, 10⟩ 500 = ["p0"] := by
    norm_num [breachingPartitions, List.filterMap_cons, hra]
  refine ⟨hempty, hbr, ?_⟩
  rw [hempty, hbr]
  simp

end Gettu
